import Mathlib

/-!
Verification of the stencil-IR optimization core (shape inference, operator
inlining, loop unrolling) of the open-earth-compiler repository.

The repository's `src/` exposes only the pass factory declarations
(`include/Dialect/Stencil/Passes.h`); the data model and the three pass
algorithms are therefore modelled from the specification document and the
claims are settled against that model.
-/

namespace Stencil

/-- Modelled from the spec: a static integer offset vector relative to the
current iteration point (`AccessOp` reads "at a static integer offset
vector"); one integer per spatial dimension. -/
abbrev Offset (d : Nat) := Fin d → Int

/-- Modelled from the spec: a `BoundingBox` is "a per-dimension pair
(lower inclusive, upper exclusive) integer offset range". -/
abbrev Box (d : Nat) := Fin d → Int × Int

/-- Modelled from the spec: the shape lattice value of a temporary.
"⊥ denotes 'not yet observed'" is the `none` case; a set box is `some`
(the design notes ask for "a tagged variant (Unknown | Box) rather than a
sentinel value"). -/
abbrev Shape (d : Nat) := Option (Box d)

/-- Modelled from the spec: an operand of an `ApplyRegion` is "a reference to
a `Temporary` (producer) or an external input buffer".  Temporaries and
external buffers are identified by arena indices, following the design note
to "implement with an explicit index-based graph". -/
inductive Operand where
  | temp (i : Nat)
  | ext (i : Nat)
deriving DecidableEq

/-- Modelled from the spec: an `AccessOp` "reads one operand `Temporary` at a
static integer offset vector relative to the current iteration point". -/
structure AccessOp (d : Nat) where
  operand : Operand
  offset : Offset d

/-- Modelled from the spec: the body of an `ApplyRegion` is a sequence of
`AccessOp` and arithmetic/combinator operations terminated by a `ReturnOp`;
an expression is one returned value built from accesses and arithmetic. -/
inductive StExpr (d : Nat) where
  | access (p : Operand) (o : Offset d)
  | const (c : Int)
  | add (a b : StExpr d)
  | mul (a b : StExpr d)

/-- The list of `AccessOp`s occurring in an expression ("the body's only way
to read spatial neighbors is through `AccessOp`"). -/
def StExpr.accessList {d : Nat} : StExpr d → List (AccessOp d)
  | .access p o => [⟨p, o⟩]
  | .const _ => []
  | .add a b => a.accessList ++ b.accessList
  | .mul a b => a.accessList ++ b.accessList

/-- Modelled from the spec: an `ApplyRegion` holds a body (its list of
returned values; a single value before unrolling, k values after unrolling by
factor k) and "a result shape: one `BoundingBox` per result temporary,
initially unknown (⊥)". -/
structure ApplyRegion (d : Nat) where
  body : List (StExpr d)
  resultShape : Shape d

instance {d : Nat} : Inhabited (ApplyRegion d) := ⟨⟨[], none⟩⟩

/-- All accesses made anywhere in a region's body. -/
def ApplyRegion.accessList {d : Nat} (r : ApplyRegion d) : List (AccessOp d) :=
  r.body.flatMap StExpr.accessList

/-- Modelled from the spec: a function owns an ordered sequence of
apply-regions; region `i` produces temporary `i` ("a virtual buffer produced
by exactly one `ApplyRegion`").  `seed` gives the caller-declared required
box of each output temporary (`none` for non-outputs); `extDom` gives the
declared domain of each external input buffer; `numExts` bounds the external
input indices in use. -/
structure StencilProgram (d : Nat) where
  regions : List (ApplyRegion d)
  seed : Operand → Shape d
  extDom : Nat → Shape d
  numExts : Nat

instance {d : Nat} : Inhabited (StencilProgram d) :=
  ⟨⟨[], fun _ => none, fun _ => none, 0⟩⟩

/-- The shape-analysis state: one lattice value per operand. -/
abbrev ShapeState (d : Nat) := Operand → Shape d

/-- Box containment: `boxLe a b` holds when the index range of `a` is fully
contained in the index range of `b`, dimension by dimension. -/
def boxLe {d : Nat} (a b : Box d) : Prop :=
  ∀ j, (b j).1 ≤ (a j).1 ∧ (a j).2 ≤ (b j).2

instance {d : Nat} (a b : Box d) : Decidable (boxLe a b) :=
  inferInstanceAs (Decidable (∀ j, (b j).1 ≤ (a j).1 ∧ (a j).2 ≤ (b j).2))

/-- Modelled from the spec: "boxes form a join-semilattice under element-wise
union". -/
def boxUnion {d : Nat} (a b : Box d) : Box d :=
  fun j => (min (a j).1 (b j).1, max (a j).2 (b j).2)

/-- Shifting a box by a static offset vector. -/
def boxShift {d : Nat} (b : Box d) (o : Offset d) : Box d :=
  fun j => ((b j).1 + o j, (b j).2 + o j)

/-- Order on the shape lattice: ⊥ is below everything. -/
def shapeLe {d : Nat} : Shape d → Shape d → Prop
  | none, _ => True
  | some _, none => False
  | some a, some b => boxLe a b

instance {d : Nat} (s t : Shape d) : Decidable (shapeLe s t) := by
  cases s with
  | none => exact isTrue trivial
  | some a => cases t with
    | none => exact isFalse (fun h => h)
    | some b => exact inferInstanceAs (Decidable (boxLe a b))

/-- Join on the shape lattice. -/
def shapeJoin {d : Nat} : Shape d → Shape d → Shape d
  | none, s => s
  | some a, none => some a
  | some a, some b => some (boxUnion a b)

/-- Shifting a shape; ⊥ stays ⊥. -/
def shapeShift {d : Nat} : Shape d → Offset d → Shape d
  | none, _ => none
  | some b, o => some (boxShift b o)

/-- An operand reference that keeps the producer/consumer graph acyclic:
region `i` may read a temporary only if it was produced by an earlier region;
external inputs are leaves. -/
def opBelow : Operand → Nat → Prop
  | Operand.temp t, i => t < i
  | Operand.ext _, _ => True

instance (q : Operand) (i : Nat) : Decidable (opBelow q i) := by
  cases q with
  | temp t => exact inferInstanceAs (Decidable (t < i))
  | ext e => exact isTrue trivial

/-- Modelled from the spec: "the operator graph is a DAG from outputs back to
leaf inputs; the absence of cycles is an invariant checked before
analysis".  In the arena representation this is: every temporary operand of
region `i` is produced by a region with a smaller index. -/
def WF {d : Nat} (P : StencilProgram d) : Prop :=
  ∀ i ∈ List.range P.regions.length,
    ∀ a ∈ (P.regions.getD i default).accessList, opBelow a.operand i

instance {d : Nat} (P : StencilProgram d) : Decidable (WF P) :=
  inferInstanceAs (Decidable (∀ i ∈ List.range P.regions.length,
    ∀ a ∈ (P.regions.getD i default).accessList, opBelow a.operand i))

/-- Modelled from the spec, backward propagation step for one access: "for
each `AccessOp` in its body reading operand temporary T at offset `o`, grow
T's required box by (consumer's required box) shifted by `o`" (region `i` is
the consumer). -/
def growAccess {d : Nat} (i : Nat) (bs : ShapeState d) (a : AccessOp d) : ShapeState d :=
  fun q =>
    if q = a.operand then shapeJoin (bs q) (shapeShift (bs (Operand.temp i)) a.offset)
    else bs q

/-- Backward propagation over all accesses of one consumer region. -/
def processRegion {d : Nat} (i : Nat) (r : ApplyRegion d) (bs : ShapeState d) : ShapeState d :=
  r.accessList.foldl (growAccess i) bs

/-- Modelled from the spec: "process operators in reverse topological order
(consumers before producers)" — regions are processed from the highest arena
index down to `0`. -/
def sweepDown {d : Nat} (P : StencilProgram d) : Nat → ShapeState d → ShapeState d
  | 0, bs => bs
  | n + 1, bs => sweepDown P n (processRegion n (P.regions.getD n default) bs)

/-- One full backward-propagation sweep over the whole operator graph. -/
def sweepOnce {d : Nat} (P : StencilProgram d) (bs : ShapeState d) : ShapeState d :=
  sweepDown P P.regions.length bs

/-- Modelled from the spec: shape inference seeds every output temporary with
its caller-declared domain (all other operands start at ⊥) and propagates
backwards to a fixpoint. -/
def inferShapes {d : Nat} (P : StencilProgram d) : ShapeState d :=
  sweepOnce P P.seed

/-- Soundness of a shape assignment: every access's offset-shifted consumer
range is contained in the assigned box of the operand it reads.  This is
also the condition under which backward propagation makes no further
change (the fixpoint condition). -/
def Saturated {d : Nat} (P : StencilProgram d) (bs : ShapeState d) : Prop :=
  ∀ i ∈ List.range P.regions.length,
    ∀ a ∈ (P.regions.getD i default).accessList,
      shapeLe (shapeShift (bs (Operand.temp i)) a.offset) (bs a.operand)

/-- The number of elementary box-propagation steps performed by one backward
sweep: one join per access in the graph. -/
def propagationSteps {d : Nat} (P : StencilProgram d) : Nat :=
  (P.regions.map (fun r => r.accessList.length)).sum

/-- An operand that refers to an external input buffer. -/
def isExt : Operand → Prop
  | Operand.temp _ => False
  | Operand.ext _ => True

instance (q : Operand) : Decidable (isExt q) := by
  cases q with
  | temp t => exact isFalse (fun h => h)
  | ext e => exact isTrue trivial

/-- All accesses in the list read external input buffers. -/
def extOnly {d : Nat} (as : List (AccessOp d)) : Prop :=
  ∀ a ∈ as, isExt a.operand

instance {d : Nat} (as : List (AccessOp d)) : Decidable (extOnly as) :=
  inferInstanceAs (Decidable (∀ a ∈ as, isExt a.operand))

/-- Renumbering of a temporary index after region `p` (and temporary `p`)
have been deleted: indices above `p` shift down by one. -/
def remapTemp (p t : Nat) : Nat :=
  if p < t then t - 1 else t

/-- Renumbering of an operand after region `p` has been deleted. -/
def Operand.remap (p : Nat) : Operand → Operand
  | Operand.temp t => Operand.temp (remapTemp p t)
  | Operand.ext e => Operand.ext e

/-- Inverse direction of the renumbering: the operand of the original program
that a post-deletion operand refers to. -/
def unmapOperand (p : Nat) : Operand → Operand
  | Operand.temp t => Operand.temp (if p ≤ t then t + 1 else t)
  | Operand.ext e => Operand.ext e

/-- Renumber every operand in an expression after region `p` was deleted. -/
def StExpr.renumber {d : Nat} (p : Nat) : StExpr d → StExpr d
  | .access q o => .access (q.remap p) o
  | .const c => .const c
  | .add a b => .add (a.renumber p) (b.renumber p)
  | .mul a b => .mul (a.renumber p) (b.renumber p)

/-- Modelled from the spec: offset composition — shifting a body by `o`
rewrites every nested access at offset `o_inner` to the composed offset
`o + o_inner` ("spatial offsets are additive under nesting"). -/
def StExpr.shiftAll {d : Nat} (o : Offset d) : StExpr d → StExpr d
  | .access q oi => .access q (fun j => o j + oi j)
  | .const c => .const c
  | .add a b => .add (a.shiftAll o) (b.shiftAll o)
  | .mul a b => .mul (a.shiftAll o) (b.shiftAll o)

/-- Modelled from the spec, inlining splice at the expression level: the
access in the consumer reading temporary `p` at offset `o` is replaced by a
copy of the producer's body `pb` with every nested access offset composed
with `o`; all remaining temporary operands are renumbered for the deletion
of region `p`. -/
def StExpr.inlineSubst {d : Nat} (p : Nat) (pb : StExpr d) : StExpr d → StExpr d
  | .access (Operand.temp t) o =>
      if t = p then (pb.shiftAll o).renumber p
      else .access (Operand.temp (remapTemp p t)) o
  | .access (Operand.ext e) o => .access (Operand.ext e) o
  | .const c => .const c
  | .add a b => .add (StExpr.inlineSubst p pb a) (StExpr.inlineSubst p pb b)
  | .mul a b => .mul (StExpr.inlineSubst p pb a) (StExpr.inlineSubst p pb b)

/-- The access list produced by `StExpr.inlineSubst` for a single original
access. -/
def substAccessList {d : Nat} (p : Nat) (pb : StExpr d) (a : AccessOp d) : List (AccessOp d) :=
  match a.operand with
  | Operand.temp t =>
      if t = p then ((pb.shiftAll a.offset).renumber p).accessList
      else [⟨Operand.temp (remapTemp p t), a.offset⟩]
  | Operand.ext _ => [a]

/-- Modelled from the spec: the graph rewrite of the inlining splice —
region `p` (and its temporary) are deleted, every remaining region's body has
the producer body substituted for accesses to temporary `p` (with offset
composition) and its operands renumbered, and the output seeds follow the
renumbering. -/
def spliceProgram {d : Nat} (P : StencilProgram d) (p : Nat) (pb : StExpr d) :
    StencilProgram d :=
  { regions := (P.regions.eraseIdx p).map
      (fun r => ⟨r.body.map (StExpr.inlineSubst p pb), r.resultShape⟩),
    seed := fun q => P.seed (unmapOperand p q),
    extDom := P.extDom,
    numExts := P.numExts }

/-- The number of consuming `AccessOp`s of temporary `p` anywhere in the
graph (the temporary's use-sites). -/
def StencilProgram.accessCount {d : Nat} (P : StencilProgram d) (p : Nat) : Nat :=
  (P.regions.map
    (fun r => (r.accessList.filter (fun a => decide (a.operand = Operand.temp p))).length)).sum

/-- Modelled from the spec: candidate selection for inlining — region `p`
exists with a single-value body, "P's result temporary has exactly one
consuming `AccessOp`" and "P's shape is fully determined (no ⊥)". -/
def inlineCandidate {d : Nat} (P : StencilProgram d) (p : Nat) : Prop :=
  ∃ r pb, P.regions[p]? = some r ∧ r.body = [pb] ∧
    P.accessCount p = 1 ∧ r.resultShape.isSome

/-- Modelled from the spec: one inlining decision — splice region `p` into
its single consumer when and only when `p` is a candidate; a region with
undetermined shape or the wrong number of uses is simply skipped (the graph
is returned unchanged; inlining is never a hard failure). -/
def inlineStep {d : Nat} (P : StencilProgram d) (p : Nat) : StencilProgram d :=
  match P.regions[p]? with
  | none => P
  | some r =>
      match r.body with
      | [pb] =>
          if P.accessCount p = 1 ∧ r.resultShape.isSome then spliceProgram P p pb else P
      | _ => P

/-- Boolean form of the inlining candidate test, used by the pass driver. -/
def inlineCandidateB {d : Nat} (P : StencilProgram d) (p : Nat) : Bool :=
  match P.regions[p]? with
  | none => false
  | some r =>
      match r.body with
      | [_] => decide (P.accessCount p = 1) && r.resultShape.isSome
      | _ => false

/-- Modelled from the spec: the inlining pass repeats candidate selection to
a fixpoint ("inlining can expose new single-use producers"); the fuel is the
region count, which bounds the number of possible splices. -/
def inliningPassFuel {d : Nat} : Nat → StencilProgram d → StencilProgram d
  | 0, P => P
  | n + 1, P =>
      match (List.range P.regions.length).find? (inlineCandidateB P) with
      | some p => inliningPassFuel n (inlineStep P p)
      | none => P

/-- The inlining pass as a single-function transformation. -/
def inliningPass {d : Nat} (P : StencilProgram d) : StencilProgram d :=
  inliningPassFuel P.regions.length P

/-- The offset that moves the iteration point by `r` slices along `axis`. -/
def axisOffset {d : Nat} (axis : Fin d) (r : Nat) : Offset d :=
  fun j => if j = axis then (r : Int) else 0

/-- Modelled from the spec: unrolling replication — "the body is duplicated
k times; each duplicate's every `AccessOp` offset along the target axis is
incremented by its replica index (0..k-1)". -/
def unrollBody {d : Nat} (axis : Fin d) (k : Nat) (e : StExpr d) : List (StExpr d) :=
  (List.range k).map (fun r => e.shiftAll (axisOffset axis r))

/-- Modelled from the spec: the unrolled region — the replicas are "packed
into a single combined `ReturnOp` producing k values per original scalar
result". -/
def unrolledRegion {d : Nat} (axis : Fin d) (k : Nat) (r : ApplyRegion d) : ApplyRegion d :=
  ⟨r.body.flatMap (unrollBody axis k), r.resultShape⟩

/-- Modelled from the spec: the unrolling precondition — the region's result
box along the target axis is already known (shape inference has run) and its
extent is evenly divisible by `k`. -/
def unrollPrecond {d : Nat} (axis : Fin d) (k : Nat) (r : ApplyRegion d) : Bool :=
  match r.resultShape with
  | none => false
  | some b => decide (0 < k) && decide (((b axis).2 - (b axis).1) % (k : Int) = 0)

/-- Modelled from the spec: the unrolling pass — best-effort; "any
precondition violation causes the specific region to be left unmodified
rather than aborting the pipeline". -/
def unrollingPass {d : Nat} (axis : Fin d) (k : Nat) (P : StencilProgram d) :
    StencilProgram d :=
  { P with regions :=
      P.regions.map (fun r => if unrollPrecond axis k r then unrolledRegion axis k r else r) }

/-- Modelled from the spec: the two fatal analysis-stage error kinds —
"(a) CyclicDependency — the producer/consumer graph is not a DAG; fatal
per-function. (b) OutOfBoundsAccess — a computed offset reads outside an
external input's declared domain; fatal per-function." -/
inductive StencilError where
  | cyclicDependency : StencilError
  | outOfBoundsAccess : Nat → StencilError
deriving DecidableEq

/-- External input `e` is read outside its declared domain: the required box
computed for it is not contained in the declared one. -/
def oobViolation {d : Nat} (P : StencilProgram d) (B : ShapeState d) (e : Nat) : Bool :=
  match P.extDom e with
  | none => false
  | some dom => ! decide (shapeLe (B (Operand.ext e)) (some dom))

/-- Search for an out-of-bounds external access after the fixpoint. -/
def findOob {d : Nat} (P : StencilProgram d) (B : ShapeState d) : Option Nat :=
  (List.range P.numExts).find? (oobViolation P B)

/-- Modelled from the spec: shape inference "mutates each operator's shape
annotation in place" — every region's result shape is set to the inferred
box of its temporary. -/
def withShapes {d : Nat} (P : StencilProgram d) (B : ShapeState d) : StencilProgram d :=
  { P with regions := P.regions.mapIdx (fun i r => ⟨r.body, B (Operand.temp i)⟩) }

/-- Modelled from the spec: the shape-inference pass with its failure
contract — a structured error when a cycle is detected or an external-buffer
bound is violated; otherwise the program with updated shape annotations.
A temporary whose box remains ⊥ is "reported but not an error". -/
def shapeInferenceRun {d : Nat} (P : StencilProgram d) :
    Except StencilError (StencilProgram d) :=
  if WF P then
    match findOob P (inferShapes P) with
    | some e => Except.error (StencilError.outOfBoundsAccess e)
    | none => Except.ok (withShapes P (inferShapes P))
  else Except.error StencilError.cyclicDependency

/-- The shape-inference pass as a total single-function transformation (on a
fatal analysis error the function's IR is left unrewritten; the error is
surfaced separately by the pipeline driver). -/
def shapeInferencePassFn {d : Nat} (P : StencilProgram d) : StencilProgram d :=
  match shapeInferenceRun P with
  | Except.ok Q => Q
  | Except.error _ => P

/-- Modelled from the spec: the per-function pipeline — shape inference,
then inlining, then unrolling; "analysis-stage errors (a, b) abort the
remaining passes for that function and are surfaced to the driver;
rewrite-stage skip conditions (c, d) are silently logged and do not
abort". -/
def runPipeline {d : Nat} (axis : Fin d) (k : Nat) (P : StencilProgram d) :
    Except StencilError (StencilProgram d) :=
  match shapeInferenceRun P with
  | Except.error e => Except.error e
  | Except.ok Q => Except.ok (unrollingPass axis k (inliningPass Q))

/-- Modelled from the spec: evaluation of a region-body expression at one
iteration point — an `AccessOp` reads its operand grid at the iteration
point displaced by the static offset; arithmetic is evaluated pointwise. -/
def evalExpr {d : Nat} (env : Operand → (Fin d → Int) → Int) (x : Fin d → Int) :
    StExpr d → Int
  | .access p o => env p (fun j => x j + o j)
  | .const c => c
  | .add a b => evalExpr env x a + evalExpr env x b
  | .mul a b => evalExpr env x a * evalExpr env x b

/-- Modelled from the spec: a two-level chain — producer region `P` (body
`pb`, temporary 0) feeding a single consumer region `C` (body `cb`,
temporary 1); the consumer's temporary is the function output with declared
box `outB`. -/
def chainBefore {d : Nat} (pb cb : StExpr d) (sP sC : Shape d) (outB : Box d) :
    StencilProgram d :=
  { regions := [⟨[pb], sP⟩, ⟨[cb], sC⟩],
    seed := fun q => if q = Operand.temp 1 then some outB else none,
    extDom := fun _ => none,
    numExts := 0 }

/-- Modelled from the spec: the host pass-management system applies a
single-function transformation unit to one function of a module, leaving the
other functions untouched. -/
def applyPassAt {d : Nat} (f : StencilProgram d → StencilProgram d)
    (m : List (StencilProgram d)) (i : Nat) : List (StencilProgram d) :=
  m.set i (f (m.getD i default))

/-- The externally visible interface of one pass: its CLI/registration name,
the parameters of its C++ factory function, and the pass-specific
configuration supplied externally per invocation. -/
structure PassInterface where
  cliName : String
  factoryParams : List String
  invocationOptions : List String

/-- From `src/include/Dialect/Stencil/Passes.h`:
`std::unique_ptr<OperationPass<FuncOp>> createStencilInliningPass();` —
a parameterless factory; the spec names the pass "inlining" and gives it no
pass-specific configuration. -/
def createStencilInliningPassSig : PassInterface :=
  ⟨"inlining", [], []⟩

/-- From `src/include/Dialect/Stencil/Passes.h`:
`std::unique_ptr<OperationPass<FuncOp>> createStencilUnrollingPass();` —
a parameterless factory; the spec names the pass "unrolling" and has the
axis selector and integer factor "supplied externally per invocation". -/
def createStencilUnrollingPassSig : PassInterface :=
  ⟨"unrolling", [], ["axis", "factor"]⟩

/-- From `src/include/Dialect/Stencil/Passes.h`:
`std::unique_ptr<OperationPass<FuncOp>> createShapeInferencePass();` —
a parameterless factory; the spec names the pass "shape-inference" and gives
it no pass-specific configuration. -/
def createShapeInferencePassSig : PassInterface :=
  ⟨"shape-inference", [], []⟩

/-- A choice of one of the three pass factories. -/
inductive FactoryChoice where
  | inlining : FactoryChoice
  | unrolling : FactoryChoice
  | shapeInference : FactoryChoice
deriving DecidableEq

/-- The pass object a factory constructs (identified by its interface). -/
def passObjectFor : FactoryChoice → PassInterface
  | FactoryChoice.inlining => createStencilInliningPassSig
  | FactoryChoice.unrolling => createStencilUnrollingPassSig
  | FactoryChoice.shapeInference => createShapeInferencePassSig

/-- Modelled from the spec: the allocation state behind the opaque factories
(the factory bodies are not under `src/`): a bump allocator — `next` is the
first never-allocated address and `mem` the allocated pass objects. -/
structure PassHeap where
  next : Nat
  mem : Nat → Option PassInterface

/-- A well-formed heap: no object lives at or above the allocation
frontier. -/
def PassHeap.Wf (h : PassHeap) : Prop :=
  ∀ q, h.next ≤ q → h.mem q = none

/-- Modelled from the spec: each factory call returns a `std::unique_ptr` to
a freshly constructed pass object — a fresh address holding a new object,
with exclusive ownership (the allocator never hands the address out
again). -/
def createPass (c : FactoryChoice) (h : PassHeap) : Nat × PassHeap :=
  (h.next,
   ⟨h.next + 1, fun q => if q = h.next then some (passObjectFor c) else h.mem q⟩)

/-- Run a sequence of factory calls, collecting the returned addresses. -/
def runFactories : List FactoryChoice → PassHeap → List Nat × PassHeap
  | [], h => ([], h)
  | c :: cs, h =>
      let ph := createPass c h
      let rest := runFactories cs ph.2
      (ph.1 :: rest.1, rest.2)

/-- A one-dimensional offset. -/
def off1 (z : Int) : Offset 1 := fun _ => z

/-- A one-dimensional box. -/
def box1 (lo hi : Int) : Box 1 := fun _ => (lo, hi)

/-- The spec's scenario region `R0`: its body reads an external input at
offsets `{-1, 0, +1}`; its temporary `T0` is the output with declared box
`[0, 10)`. -/
def scenarioBody : StExpr 1 :=
  StExpr.add (StExpr.access (Operand.ext 0) (off1 (-1)))
    (StExpr.add (StExpr.access (Operand.ext 0) (off1 0))
      (StExpr.access (Operand.ext 0) (off1 1)))

/-- The spec's scenario program: one region `R0` producing output `T0` with
declared box `[0, 10)` in 1D. -/
def scenarioProg : StencilProgram 1 :=
  { regions := [⟨[scenarioBody], none⟩],
    seed := fun q => if q = Operand.temp 0 then some (box1 0 10) else none,
    extDom := fun _ => none,
    numExts := 0 }

/-- The spec's second scenario as a two-level chain: `R1` reads `T0` at
offset 0 only; `R0 → T0` is single-use. -/
def chainProgEx : StencilProgram 1 :=
  chainBefore scenarioBody (StExpr.access (Operand.temp 0) (off1 0))
    (some (box1 0 10)) (some (box1 0 10)) (box1 0 10)

/-- A two-function module used to exercise the host driver model. -/
def moduleEx : List (StencilProgram 1) := [scenarioProg, chainProgEx]

/-- A concrete 1D grid environment: every operand grid returns the value of
the queried coordinate. -/
def envEx : Operand → (Fin 1 → Int) → Int := fun _ y => y 0

/-- A concrete 1D iteration point. -/
def ptEx : Fin 1 → Int := fun _ => 5

/-- A concrete 1D body expression reading an external input at offset 1. -/
def exprEx : StExpr 1 := StExpr.access (Operand.ext 0) (off1 1)

/-- An empty allocator state for the factory model. -/
def heapEx : PassHeap := ⟨0, fun _ => none⟩

/-- A concrete sequence of factory calls. -/
def choicesEx : List FactoryChoice :=
  [FactoryChoice.inlining, FactoryChoice.unrolling, FactoryChoice.shapeInference]

/-- The shape assignment of the pre-inlining chain read through the operand
renumbering, used to transfer bounds onto the inlined program. -/
def chainPullback {d : Nat} (Bb : ShapeState d) : ShapeState d :=
  fun q => Bb (unmapOperand 0 q)

/-- The shape assignment of the inlined chain read back onto the original
two-region chain: the deleted producer temporary receives the consumer's box
shifted by the splice offset. -/
def chainPushforward {d : Nat} (Ba : ShapeState d) (o : Offset d) : ShapeState d
  | Operand.temp 0 => shapeShift (Ba (Operand.temp 0)) o
  | Operand.temp (t + 1) => Ba (Operand.temp t)
  | Operand.ext e => Ba (Operand.ext e)

theorem boxLe_refl {d : Nat} (a : Box d) : boxLe a a :=
  fun _ => ⟨le_refl _, le_refl _⟩

theorem boxLe_trans {d : Nat} {a b c : Box d} (h1 : boxLe a b) (h2 : boxLe b c) :
    boxLe a c :=
  fun j => ⟨le_trans (h2 j).1 (h1 j).1, le_trans (h1 j).2 (h2 j).2⟩

theorem boxLe_antisymm {d : Nat} {a b : Box d} (h1 : boxLe a b) (h2 : boxLe b a) :
    a = b := by
  funext j
  refine Prod.ext ?_ ?_
  · exact le_antisymm (h2 j).1 (h1 j).1
  · exact le_antisymm (h1 j).2 (h2 j).2

theorem boxLe_union_left {d : Nat} (a b : Box d) : boxLe a (boxUnion a b) :=
  fun _ => ⟨min_le_left _ _, le_max_left _ _⟩

theorem boxLe_union_right {d : Nat} (a b : Box d) : boxLe b (boxUnion a b) :=
  fun _ => ⟨min_le_right _ _, le_max_right _ _⟩

theorem boxUnion_le {d : Nat} {a b c : Box d} (h1 : boxLe a c) (h2 : boxLe b c) :
    boxLe (boxUnion a b) c :=
  fun j => ⟨le_min (h1 j).1 (h2 j).1, max_le (h1 j).2 (h2 j).2⟩

theorem boxUnion_eq_left {d : Nat} {a b : Box d} (h : boxLe b a) : boxUnion a b = a := by
  funext j
  simp [boxUnion, min_eq_left (h j).1, max_eq_left (h j).2]

theorem boxShift_mono {d : Nat} {a b : Box d} (o : Offset d) (h : boxLe a b) :
    boxLe (boxShift a o) (boxShift b o) :=
  fun j => ⟨add_le_add_right (h j).1 _, add_le_add_right (h j).2 _⟩

theorem boxShift_comp {d : Nat} (b : Box d) (o oi : Offset d) :
    boxShift (boxShift b o) oi = boxShift b (fun j => o j + oi j) := by
  funext j
  simp [boxShift, add_assoc]

theorem shapeLe_refl {d : Nat} : ∀ s : Shape d, shapeLe s s
  | none => trivial
  | some a => boxLe_refl a

theorem shapeLe_trans {d : Nat} :
    ∀ {s t u : Shape d}, shapeLe s t → shapeLe t u → shapeLe s u
  | none, _, _, _, _ => trivial
  | some _, some _, some _, h1, h2 => boxLe_trans h1 h2
  | some _, some _, none, _, h2 => h2.elim
  | some _, none, _, h1, _ => h1.elim

theorem shapeLe_antisymm {d : Nat} :
    ∀ {s t : Shape d}, shapeLe s t → shapeLe t s → s = t
  | none, none, _, _ => rfl
  | none, some _, _, h2 => h2.elim
  | some _, none, h1, _ => h1.elim
  | some _, some _, h1, h2 => congrArg some (boxLe_antisymm h1 h2)

theorem shapeLe_join_left {d : Nat} : ∀ s u : Shape d, shapeLe s (shapeJoin s u)
  | none, _ => trivial
  | some a, none => boxLe_refl a
  | some a, some b => boxLe_union_left a b

theorem shapeLe_join_right {d : Nat} : ∀ s u : Shape d, shapeLe u (shapeJoin s u)
  | none, u => shapeLe_refl u
  | some _, none => trivial
  | some a, some b => boxLe_union_right a b

theorem shapeJoin_le {d : Nat} :
    ∀ {s u w : Shape d}, shapeLe s w → shapeLe u w → shapeLe (shapeJoin s u) w
  | none, _, _, _, h2 => h2
  | some _, none, _, h1, _ => h1
  | some _, some _, none, h1, _ => h1.elim
  | some _, some _, some _, h1, h2 => boxUnion_le h1 h2

theorem shapeJoin_eq_left {d : Nat} :
    ∀ {s u : Shape d}, shapeLe u s → shapeJoin s u = s
  | none, none, _ => rfl
  | some _, none, _ => rfl
  | none, some _, h => h.elim
  | some _, some _, h => congrArg some (boxUnion_eq_left h)

theorem shapeShift_mono {d : Nat} (o : Offset d) :
    ∀ {s t : Shape d}, shapeLe s t → shapeLe (shapeShift s o) (shapeShift t o)
  | none, _, _ => trivial
  | some _, none, h => h.elim
  | some _, some _, h => boxShift_mono o h

theorem shapeShift_comp {d : Nat} (o oi : Offset d) :
    ∀ s : Shape d, shapeShift (shapeShift s o) oi = shapeShift s (fun j => o j + oi j)
  | none => rfl
  | some b => congrArg some (boxShift_comp b o oi)

theorem growAccess_le {d : Nat} (i : Nat) (bs : ShapeState d) (a : AccessOp d)
    (q : Operand) : shapeLe (bs q) (growAccess i bs a q) := by
  by_cases hq : q = a.operand
  · simp only [growAccess, if_pos hq]
    exact shapeLe_join_left _ _
  · simp only [growAccess, if_neg hq]
    exact shapeLe_refl _

theorem growAccess_ne {d : Nat} (i : Nat) (bs : ShapeState d) (a : AccessOp d)
    {q : Operand} (h : q ≠ a.operand) : growAccess i bs a q = bs q := by
  simp only [growAccess, if_neg h]

theorem growAccess_eq {d : Nat} (i : Nat) (bs : ShapeState d) (a : AccessOp d) :
    growAccess i bs a a.operand =
      shapeJoin (bs a.operand) (shapeShift (bs (Operand.temp i)) a.offset) := by
  simp [growAccess]

theorem foldl_grow_le {d : Nat} (i : Nat) (as : List (AccessOp d)) :
    ∀ (bs : ShapeState d) (q : Operand),
      shapeLe (bs q) ((as.foldl (growAccess i) bs) q) := by
  induction as with
  | nil => intro bs q; exact shapeLe_refl _
  | cons a rest ih =>
      intro bs q
      rw [List.foldl_cons]
      exact shapeLe_trans (growAccess_le i bs a q) (ih (growAccess i bs a) q)

theorem foldl_grow_frame {d : Nat} (i : Nat) (as : List (AccessOp d)) :
    ∀ (bs : ShapeState d) (q : Operand), (∀ a ∈ as, q ≠ a.operand) →
      (as.foldl (growAccess i) bs) q = bs q := by
  induction as with
  | nil => intro bs q _; rfl
  | cons a rest ih =>
      intro bs q h
      rw [List.foldl_cons, ih (growAccess i bs a) q (fun b hb => h b (List.mem_cons_of_mem a hb)),
        growAccess_ne i bs a (h a (List.mem_cons_self a rest))]

theorem foldl_grow_sound {d : Nat} (i : Nat) (as : List (AccessOp d)) :
    ∀ (bs : ShapeState d), (∀ a ∈ as, a.operand ≠ Operand.temp i) →
      ∀ a ∈ as, shapeLe (shapeShift (bs (Operand.temp i)) a.offset)
        ((as.foldl (growAccess i) bs) a.operand) := by
  induction as with
  | nil => intro bs _ a ha; exact absurd ha (List.not_mem_nil a)
  | cons a0 rest ih =>
      intro bs hni a ha
      rw [List.foldl_cons]
      rcases List.mem_cons.mp ha with rfl | hmem
      · refine shapeLe_trans ?_ (foldl_grow_le i rest (growAccess i bs a) a.operand)
        rw [growAccess_eq]
        exact shapeLe_join_right _ _
      · have hsrc : growAccess i bs a0 (Operand.temp i) = bs (Operand.temp i) :=
          growAccess_ne i bs a0 (Ne.symm (hni a0 (List.mem_cons_self a0 rest)))
        have := ih (growAccess i bs a0)
          (fun b hb => hni b (List.mem_cons_of_mem a0 hb)) a hmem
        rwa [hsrc] at this

theorem foldl_grow_id {d : Nat} (i : Nat) (as : List (AccessOp d)) :
    ∀ (bs : ShapeState d),
      (∀ a ∈ as, shapeLe (shapeShift (bs (Operand.temp i)) a.offset) (bs a.operand)) →
      as.foldl (growAccess i) bs = bs := by
  induction as with
  | nil => intro bs _; rfl
  | cons a0 rest ih =>
      intro bs hsat
      have h0 : growAccess i bs a0 = bs := by
        funext q
        by_cases hq : q = a0.operand
        · subst hq
          rw [growAccess_eq]
          exact shapeJoin_eq_left (hsat a0 (List.mem_cons_self a0 rest))
        · exact growAccess_ne i bs a0 hq
      rw [List.foldl_cons, h0]
      exact ih bs (fun b hb => hsat b (List.mem_cons_of_mem a0 hb))

theorem foldl_grow_min {d : Nat} (i : Nat) {A : ShapeState d} (as : List (AccessOp d)) :
    (∀ a ∈ as, shapeLe (shapeShift (A (Operand.temp i)) a.offset) (A a.operand)) →
    ∀ (bs : ShapeState d), (∀ q, shapeLe (bs q) (A q)) →
      ∀ q, shapeLe ((as.foldl (growAccess i) bs) q) (A q) := by
  induction as with
  | nil => intro _ bs hbs q; exact hbs q
  | cons a0 rest ih =>
      intro hA bs hbs q
      rw [List.foldl_cons]
      refine ih (fun b hb => hA b (List.mem_cons_of_mem a0 hb)) (growAccess i bs a0) ?_ q
      intro w
      by_cases hw : w = a0.operand
      · subst hw
        rw [growAccess_eq]
        refine shapeJoin_le (hbs _) ?_
        exact shapeLe_trans (shapeShift_mono a0.offset (hbs (Operand.temp i)))
          (hA a0 (List.mem_cons_self a0 rest))
      · rw [growAccess_ne i bs a0 hw]
        exact hbs w

theorem wf_opBelow {d : Nat} {P : StencilProgram d} (h : WF P) {i : Nat}
    (hi : i < P.regions.length) {a : AccessOp d}
    (ha : a ∈ (P.regions.getD i default).accessList) : opBelow a.operand i :=
  h i (List.mem_range.mpr hi) a ha

theorem region_accessList_oob {d : Nat} (P : StencilProgram d) {j : Nat}
    (hj : P.regions.length ≤ j) : (P.regions.getD j default).accessList = [] := by
  rw [List.getD_eq_default _ _ hj]
  rfl

theorem opBelow_ne_temp_ge {q : Operand} {n i : Nat} (h : opBelow q n) (hni : n ≤ i) :
    q ≠ Operand.temp i := by
  cases q with
  | temp t =>
      intro he
      have ht : t = i := by injection he
      subst ht
      exact absurd (lt_of_lt_of_le h hni) (lt_irrefl t)
  | ext e => intro he; exact Operand.noConfusion he

theorem sweepDown_le {d : Nat} (P : StencilProgram d) :
    ∀ (n : Nat) (bs : ShapeState d) (q : Operand),
      shapeLe (bs q) (sweepDown P n bs q) := by
  intro n
  induction n with
  | zero => intro bs q; exact shapeLe_refl _
  | succ m ih =>
      intro bs q
      show shapeLe (bs q) (sweepDown P m (processRegion m (P.regions.getD m default) bs) q)
      exact shapeLe_trans (foldl_grow_le m _ bs q)
        (ih (processRegion m (P.regions.getD m default) bs) q)

theorem sweepDown_frame_temp {d : Nat} {P : StencilProgram d} (hwf : WF P) :
    ∀ (n : Nat) {i : Nat} (bs : ShapeState d), n ≤ i →
      sweepDown P n bs (Operand.temp i) = bs (Operand.temp i) := by
  intro n
  induction n with
  | zero => intro i bs _; rfl
  | succ m ih =>
      intro i bs hni
      have hfr : processRegion m (P.regions.getD m default) bs (Operand.temp i) =
          bs (Operand.temp i) := by
        refine foldl_grow_frame m _ bs (Operand.temp i) ?_
        intro a ha
        by_cases hm : m < P.regions.length
        · exact Ne.symm (opBelow_ne_temp_ge (wf_opBelow hwf hm ha)
            (le_trans (Nat.le_succ m) hni))
        · rw [region_accessList_oob P (le_of_not_lt hm)] at ha
          exact absurd ha (List.not_mem_nil a)
      show sweepDown P m (processRegion m (P.regions.getD m default) bs) (Operand.temp i) =
        bs (Operand.temp i)
      rw [ih _ (le_trans (Nat.le_succ m) hni), hfr]

theorem sweepDown_sound {d : Nat} {P : StencilProgram d} (hwf : WF P) :
    ∀ (n : Nat) (bs : ShapeState d), ∀ i < n,
      ∀ a ∈ (P.regions.getD i default).accessList,
        shapeLe (shapeShift (sweepDown P n bs (Operand.temp i)) a.offset)
          (sweepDown P n bs a.operand) := by
  intro n
  induction n with
  | zero => intro bs i hi; exact absurd hi (Nat.not_lt_zero i)
  | succ m ih =>
      intro bs i hi a ha
      rcases Nat.lt_succ_iff_lt_or_eq.mp hi with hlt | rfl
      · exact ih (processRegion m (P.regions.getD m default) bs) i hlt a ha
      · by_cases hm : i < P.regions.length
        · have hne : ∀ b ∈ (P.regions.getD i default).accessList,
              b.operand ≠ Operand.temp i :=
            fun b hb => opBelow_ne_temp_ge (wf_opBelow hwf hm hb) (le_refl i)
          have h1 : shapeLe (shapeShift (bs (Operand.temp i)) a.offset)
              (processRegion i (P.regions.getD i default) bs a.operand) :=
            foldl_grow_sound i _ bs hne a ha
          have h2 : processRegion i (P.regions.getD i default) bs (Operand.temp i) =
              bs (Operand.temp i) :=
            foldl_grow_frame i _ bs (Operand.temp i) (fun b hb => Ne.symm (hne b hb))
          show shapeLe
            (shapeShift
              (sweepDown P i (processRegion i (P.regions.getD i default) bs)
                (Operand.temp i)) a.offset)
            (sweepDown P i (processRegion i (P.regions.getD i default) bs) a.operand)
          rw [sweepDown_frame_temp hwf i _ (le_refl i), h2]
          exact shapeLe_trans h1
            (sweepDown_le P i (processRegion i (P.regions.getD i default) bs) a.operand)
        · rw [region_accessList_oob P (le_of_not_lt hm)] at ha
          exact absurd ha (List.not_mem_nil a)

theorem infer_saturated {d : Nat} {P : StencilProgram d} (hwf : WF P) :
    Saturated P (inferShapes P) := by
  intro i hi a ha
  exact sweepDown_sound hwf P.regions.length P.seed i (List.mem_range.mp hi) a ha

theorem seed_le_infer {d : Nat} (P : StencilProgram d) (q : Operand) :
    shapeLe (P.seed q) (inferShapes P q) :=
  sweepDown_le P P.regions.length P.seed q

theorem sweepDown_id {d : Nat} {P : StencilProgram d} {bs : ShapeState d}
    (hsat : Saturated P bs) :
    ∀ n, n ≤ P.regions.length → sweepDown P n bs = bs := by
  intro n
  induction n with
  | zero => intro _; rfl
  | succ m ih =>
      intro h
      have hm : m < P.regions.length := Nat.lt_of_lt_of_le (Nat.lt_succ_self m) h
      have hr : processRegion m (P.regions.getD m default) bs = bs :=
        foldl_grow_id m _ bs (hsat m (List.mem_range.mpr hm))
      show sweepDown P m (processRegion m (P.regions.getD m default) bs) = bs
      rw [hr]
      exact ih (le_of_lt hm)

theorem sweepDown_min {d : Nat} {P : StencilProgram d} {A : ShapeState d}
    (hsatA : Saturated P A) :
    ∀ n, n ≤ P.regions.length → ∀ (bs : ShapeState d), (∀ q, shapeLe (bs q) (A q)) →
      ∀ q, shapeLe (sweepDown P n bs q) (A q) := by
  intro n
  induction n with
  | zero => intro _ bs hbs q; exact hbs q
  | succ m ih =>
      intro h bs hbs q
      have hm : m < P.regions.length := Nat.lt_of_lt_of_le (Nat.lt_succ_self m) h
      show shapeLe (sweepDown P m (processRegion m (P.regions.getD m default) bs) q) (A q)
      exact ih (le_of_lt hm) (processRegion m (P.regions.getD m default) bs)
        (foldl_grow_min m _ (hsatA m (List.mem_range.mpr hm)) bs hbs) q

theorem infer_min {d : Nat} (P : StencilProgram d) (A : ShapeState d)
    (hseed : ∀ q, shapeLe (P.seed q) (A q)) (hsatA : Saturated P A) :
    ∀ q, shapeLe (inferShapes P q) (A q) :=
  sweepDown_min hsatA P.regions.length (le_refl _) P.seed hseed

theorem sweepOnce_infer {d : Nat} {P : StencilProgram d} (hwf : WF P) :
    sweepOnce P (inferShapes P) = inferShapes P :=
  sweepDown_id (infer_saturated hwf) P.regions.length (le_refl _)

theorem iterate_sweepOnce {d : Nat} {P : StencilProgram d} (hwf : WF P) :
    ∀ n : Nat, (sweepOnce P)^[n + 1] P.seed = inferShapes P := by
  intro n
  induction n with
  | zero => rfl
  | succ m ih =>
      rw [Function.iterate_succ_apply', ih]
      exact sweepOnce_infer hwf

theorem propagationSteps_le {d : Nat} (P : StencilProgram d) (B : Nat)
    (hB : ∀ r ∈ P.regions, r.accessList.length ≤ B) :
    propagationSteps P ≤ P.regions.length * B := by
  unfold propagationSteps
  have h := List.sum_le_card_nsmul (P.regions.map (fun r => r.accessList.length)) B ?_
  · rwa [List.length_map, smul_eq_mul] at h
  · intro x hx
    obtain ⟨r, hr, rfl⟩ := List.mem_map.mp hx
    exact hB r hr

/-- C1: after shape inference reaches its fixpoint on an acyclic operator
graph, every access's offset-shifted index range is fully contained in the
inferred box of the operand it reads (soundness, the `Saturated` predicate),
and the inferred assignment is minimal: it is below every assignment that
contains the declared output seeds and is itself sound, so no temporary's box
exceeds what some consumer requires. -/
theorem shape_inference_sound_minimal {d : Nat} (P : StencilProgram d) (hwf : WF P) :
    Saturated P (inferShapes P) ∧
    (∀ A : ShapeState d, (∀ q, shapeLe (P.seed q) (A q)) → Saturated P A →
      ∀ q, shapeLe (inferShapes P q) (A q)) :=
  ⟨infer_saturated hwf, fun A hseed hsat => infer_min P A hseed hsat⟩

theorem shape_inference_sound_minimal_witness :
    WF scenarioProg ∧ Saturated scenarioProg (inferShapes scenarioProg) :=
  ⟨by decide, (shape_inference_sound_minimal scenarioProg (by decide)).1⟩

/-- C2: monotonicity of the backward-propagation fixpoint — for every
temporary (and every external input) the box after sweep `n + 1` is a
superset of (or equal to) the box after sweep `n`; a box never shrinks once
set. -/
theorem shape_inference_monotone {d : Nat} (P : StencilProgram d) (n : Nat)
    (q : Operand) :
    shapeLe ((sweepOnce P)^[n] P.seed q) ((sweepOnce P)^[n + 1] P.seed q) := by
  rw [Function.iterate_succ_apply']
  exact sweepDown_le P P.regions.length ((sweepOnce P)^[n] P.seed) q

/-- C3: termination of shape inference on an acyclic graph — one backward
sweep in reverse topological order already reaches the fixpoint (every
further sweep returns the same state), and when every region body holds at
most `B` accesses the elementary box-propagation work of a sweep is bounded
by `D * B` for `D` temporaries. -/
theorem shape_inference_terminates {d : Nat} (P : StencilProgram d) (B : Nat)
    (hwf : WF P) (hB : ∀ r ∈ P.regions, r.accessList.length ≤ B) :
    (∀ n : Nat, (sweepOnce P)^[n + 1] P.seed = inferShapes P) ∧
    propagationSteps P ≤ P.regions.length * B :=
  ⟨iterate_sweepOnce hwf, propagationSteps_le P B hB⟩

theorem shape_inference_terminates_witness :
    WF scenarioProg ∧ (∀ r ∈ scenarioProg.regions, r.accessList.length ≤ 3) ∧
    (sweepOnce scenarioProg)^[2] scenarioProg.seed = inferShapes scenarioProg ∧
    propagationSteps scenarioProg ≤ scenarioProg.regions.length * 3 :=
  ⟨by decide, by decide,
    (shape_inference_terminates scenarioProg 3 (by decide) (by decide)).1 1,
    (shape_inference_terminates scenarioProg 3 (by decide) (by decide)).2⟩

theorem evalExpr_shiftAll {d : Nat} (env : Operand → (Fin d → Int) → Int)
    (x : Fin d → Int) (o : Offset d) :
    ∀ e : StExpr d, evalExpr env x (e.shiftAll o) = evalExpr env (fun j => x j + o j) e := by
  intro e
  induction e with
  | access p oi =>
      show env p (fun j => x j + (o j + oi j)) = env p (fun j => (x j + o j) + oi j)
      exact congrArg (env p) (funext (fun j => (add_assoc (x j) (o j) (oi j)).symm))
  | const c => rfl
  | add a b iha ihb =>
      show evalExpr env x (a.shiftAll o) + evalExpr env x (b.shiftAll o) = _
      rw [iha, ihb]
      rfl
  | mul a b iha ihb =>
      show evalExpr env x (a.shiftAll o) * evalExpr env x (b.shiftAll o) = _
      rw [iha, ihb]
      rfl

theorem getD_unrollBody {d : Nat} (axis : Fin d) (k : Nat) (e : StExpr d) {r : Nat}
    (hr : r < k) :
    (unrollBody axis k e).getD r (StExpr.const 0) = e.shiftAll (axisOffset axis r) := by
  simp [unrollBody, List.getD_eq_getElem?_getD, List.getElem?_range, hr]

/-- C5: unrolling equivalence — for an apply-region unrolled by static factor
`k` along `axis`, replica `r` (with `0 ≤ r < k`) of the unrolled body
evaluated at base iteration point `x` yields the same value as the original
body evaluated at the point displaced by `r` along `axis`. -/
theorem unrolling_equivalence {d : Nat} (env : Operand → (Fin d → Int) → Int)
    (x : Fin d → Int) (axis : Fin d) (k r : Nat) (e : StExpr d) (s : Shape d)
    (hr : r < k) :
    evalExpr env x ((unrolledRegion axis k ⟨[e], s⟩).body.getD r (StExpr.const 0)) =
      evalExpr env (fun j => x j + axisOffset axis r j) e := by
  have hbody : (unrolledRegion axis k (⟨[e], s⟩ : ApplyRegion d)).body = unrollBody axis k e := by
    simp [unrolledRegion]
  rw [hbody, getD_unrollBody axis k e hr, evalExpr_shiftAll]

theorem unrolling_equivalence_witness :
    1 < 2 ∧
    evalExpr envEx ptEx ((unrolledRegion 0 2 ⟨[exprEx], none⟩).body.getD 1 (StExpr.const 0)) =
      evalExpr envEx (fun j => ptEx j + axisOffset 0 1 j) exprEx :=
  ⟨by decide, unrolling_equivalence envEx ptEx 0 2 1 exprEx none (by decide)⟩

/-- C6: the inlining pass splices producer region `p` into its consumer when
and only when `p` is a candidate — a single-result region whose temporary has
exactly one consuming access and whose shape is fully determined (no ⊥).  On
a candidate the splice removes region `p` from the graph; on a non-candidate
the pass skips the region, returning the graph unchanged rather than
failing. -/
theorem inlining_candidate_iff {d : Nat} (P : StencilProgram d) (p : Nat) :
    (∀ r pb, P.regions[p]? = some r → r.body = [pb] →
      P.accessCount p = 1 → r.resultShape.isSome →
      inlineStep P p = spliceProgram P p pb ∧
      (inlineStep P p).regions.length + 1 = P.regions.length) ∧
    (¬ inlineCandidate P p → inlineStep P p = P) := by
  constructor
  · intro r pb hr hb hc hs
    have hstep : inlineStep P p = spliceProgram P p pb := by
      simp only [inlineStep, hr, hb]
      rw [if_pos ⟨hc, hs⟩]
    refine ⟨hstep, ?_⟩
    have hp : p < P.regions.length := by
      by_contra hnp
      rw [List.getElem?_eq_none (le_of_not_lt hnp)] at hr
      cases hr
    rw [hstep]
    show ((P.regions.eraseIdx p).map _).length + 1 = P.regions.length
    rw [List.length_map]
    exact List.length_eraseIdx_add_one hp
  · intro hnc
    rcases hr : P.regions[p]? with _ | r
    · simp [inlineStep, hr]
    · rcases hb : r.body with _ | ⟨e, _ | ⟨e2, rest⟩⟩
      · simp [inlineStep, hr, hb]
      · have hncond : ¬(P.accessCount p = 1 ∧ r.resultShape.isSome = true) :=
          fun hcond => hnc ⟨r, e, hr, hb, hcond.1, hcond.2⟩
        simp only [inlineStep, hr, hb]
        rw [if_neg hncond]
      · simp [inlineStep, hr, hb]

theorem inlining_candidate_iff_witness :
    chainProgEx.regions[0]? = some ⟨[scenarioBody], some (box1 0 10)⟩ ∧
    chainProgEx.accessCount 0 = 1 ∧
    (inlineStep chainProgEx 0).regions.length + 1 = chainProgEx.regions.length :=
  ⟨rfl, by decide,
    ((inlining_candidate_iff chainProgEx 0).1 ⟨[scenarioBody], some (box1 0 10)⟩
      scenarioBody rfl rfl (by decide) rfl).2⟩

/-- C7: the public factory interface of the three passes, as declared in
`src/include/Dialect/Stencil/Passes.h` and named by the spec — every factory
is parameterless, and the only pass-specific configuration is the unrolling
pass's axis selector and integer factor, supplied externally per
invocation. -/
theorem pass_factory_interfaces :
    createStencilInliningPassSig.factoryParams = [] ∧
    createShapeInferencePassSig.factoryParams = [] ∧
    createStencilUnrollingPassSig.factoryParams = [] ∧
    createStencilInliningPassSig.invocationOptions = [] ∧
    createShapeInferencePassSig.invocationOptions = [] ∧
    createStencilUnrollingPassSig.invocationOptions = ["axis", "factor"] ∧
    createStencilInliningPassSig.cliName = "inlining" ∧
    createStencilUnrollingPassSig.cliName = "unrolling" ∧
    createShapeInferencePassSig.cliName = "shape-inference" :=
  ⟨rfl, rfl, rfl, rfl, rfl, rfl, rfl, rfl, rfl⟩

/-- C8: error-propagation policy of the per-function pipeline — a
cyclic-dependency or out-of-bounds analysis error aborts the remaining
passes for the function and is surfaced to the driver unchanged, while on a
successful analysis the rewrite stage (inlining and unrolling, whose skip
conditions are not errors) always produces a program; an unresolved (⊥)
shape never aborts the pipeline. -/
theorem error_propagation_policy {d : Nat} (axis : Fin d) (k : Nat)
    (P : StencilProgram d) :
    (¬ WF P → runPipeline axis k P = Except.error StencilError.cyclicDependency) ∧
    (∀ e, WF P → findOob P (inferShapes P) = some e →
      runPipeline axis k P = Except.error (StencilError.outOfBoundsAccess e)) ∧
    (WF P → findOob P (inferShapes P) = none →
      runPipeline axis k P =
        Except.ok (unrollingPass axis k (inliningPass (withShapes P (inferShapes P))))) := by
  refine ⟨?_, ?_, ?_⟩
  · intro hnwf
    simp [runPipeline, shapeInferenceRun, hnwf]
  · intro e hwf hfind
    simp [runPipeline, shapeInferenceRun, hwf, hfind]
  · intro hwf hfind
    simp [runPipeline, shapeInferenceRun, hwf, hfind]

theorem error_propagation_policy_witness :
    WF scenarioProg ∧ findOob scenarioProg (inferShapes scenarioProg) = none ∧
    runPipeline 0 2 scenarioProg =
      Except.ok (unrollingPass 0 2
        (inliningPass (withShapes scenarioProg (inferShapes scenarioProg)))) :=
  ⟨by decide, rfl, (error_propagation_policy 0 2 scenarioProg).2.2 (by decide) rfl⟩

theorem getD_applyPassAt_ne {d : Nat} (f : StencilProgram d → StencilProgram d)
    (m : List (StencilProgram d)) {i j : Nat} (h : j ≠ i) :
    (applyPassAt f m i).getD j default = m.getD j default := by
  unfold applyPassAt
  rw [List.getD_eq_getElem?_getD, List.getElem?_set_ne (Ne.symm h)]
  exact (List.getD_eq_getElem?_getD m j default).symm

/-- C9: every pass produced by the three factories is a single-function
transformation unit — applying it to function `i` of a module leaves every
other function of the module unchanged (the passes are pure functions of the
one `FuncOp` they run on, with no state outside it). -/
theorem pass_frame_property {d : Nat} (axis : Fin d) (k : Nat)
    (m : List (StencilProgram d)) (i j : Nat) (hij : j ≠ i) :
    (applyPassAt shapeInferencePassFn m i).getD j default = m.getD j default ∧
    (applyPassAt inliningPass m i).getD j default = m.getD j default ∧
    (applyPassAt (unrollingPass axis k) m i).getD j default = m.getD j default :=
  ⟨getD_applyPassAt_ne _ m hij, getD_applyPassAt_ne _ m hij, getD_applyPassAt_ne _ m hij⟩

theorem pass_frame_property_witness :
    (1 : Nat) ≠ 0 ∧
    (applyPassAt shapeInferencePassFn moduleEx 0).getD 1 default = moduleEx.getD 1 default ∧
    (applyPassAt inliningPass moduleEx 0).getD 1 default = moduleEx.getD 1 default ∧
    (applyPassAt (unrollingPass 0 2) moduleEx 0).getD 1 default = moduleEx.getD 1 default :=
  ⟨by decide, pass_frame_property 0 2 moduleEx 0 1 (by decide)⟩

theorem runFactories_lb :
    ∀ (cs : List FactoryChoice) (h : PassHeap) (p : Nat),
      p ∈ (runFactories cs h).1 → h.next ≤ p := by
  intro cs
  induction cs with
  | nil => intro h p hp; exact absurd hp (List.not_mem_nil p)
  | cons c rest ih =>
      intro h p hp
      rcases List.mem_cons.mp hp with rfl | hmem
      · exact le_refl _
      · exact le_trans (Nat.le_succ _) (ih (createPass c h).2 p hmem)

theorem runFactories_nodup :
    ∀ (cs : List FactoryChoice) (h : PassHeap), (runFactories cs h).1.Nodup := by
  intro cs
  induction cs with
  | nil => intro h; exact List.nodup_nil
  | cons c rest ih =>
      intro h
      refine List.nodup_cons.mpr ⟨?_, ih (createPass c h).2⟩
      intro hmem
      have := runFactories_lb rest (createPass c h).2 h.next hmem
      exact absurd this (by simp [createPass])

theorem runFactories_mem_lt :
    ∀ (cs : List FactoryChoice) (h : PassHeap) (q : Nat), q < h.next →
      (runFactories cs h).2.mem q = h.mem q := by
  intro cs
  induction cs with
  | nil => intro h q _; rfl
  | cons c rest ih =>
      intro h q hq
      have h1 : (runFactories (c :: rest) h).2.mem q =
          (runFactories rest (createPass c h).2).2.mem q := rfl
      rw [h1, ih (createPass c h).2 q (lt_trans hq (Nat.lt_succ_self _))]
      show (if q = h.next then some (passObjectFor c) else h.mem q) = h.mem q
      rw [if_neg (Nat.ne_of_lt hq)]

theorem runFactories_mem_isSome :
    ∀ (cs : List FactoryChoice) (h : PassHeap), ∀ p ∈ (runFactories cs h).1,
      ((runFactories cs h).2.mem p).isSome := by
  intro cs
  induction cs with
  | nil => intro h p hp; exact absurd hp (List.not_mem_nil p)
  | cons c rest ih =>
      intro h p hp
      rcases List.mem_cons.mp hp with rfl | hmem
      · show ((runFactories rest (createPass c h).2).2.mem h.next).isSome
        rw [runFactories_mem_lt rest (createPass c h).2 h.next (Nat.lt_succ_self _)]
        show (if h.next = h.next then some (passObjectFor c) else h.mem h.next).isSome
        rw [if_pos rfl]
        rfl
      · exact ih (createPass c h).2 p hmem

/-- C10: unique ownership of the factory results — over any sequence of
calls to the three pass factories from a well-formed allocator state, the
returned addresses are pairwise distinct, each points to a freshly
constructed pass object (valid, hence non-null, in the final heap), and none
of them was allocated before its call, so the returned passes share no
mutable state. -/
theorem factory_freshness (cs : List FactoryChoice) (h : PassHeap) (hwf : h.Wf) :
    (runFactories cs h).1.Nodup ∧
    ∀ p ∈ (runFactories cs h).1,
      ((runFactories cs h).2.mem p).isSome ∧ h.mem p = none :=
  ⟨runFactories_nodup cs h,
    fun p hp => ⟨runFactories_mem_isSome cs h p hp, hwf p (runFactories_lb cs h p hp)⟩⟩

theorem factory_freshness_witness :
    heapEx.Wf ∧ (runFactories choicesEx heapEx).1.Nodup :=
  ⟨fun _ _ => rfl, (factory_freshness choicesEx heapEx (fun _ _ => rfl)).1⟩

theorem accessList_single {d : Nat} (e : StExpr d) (s : Shape d) :
    (⟨[e], s⟩ : ApplyRegion d).accessList = e.accessList := by
  simp [ApplyRegion.accessList]

theorem accessList_shiftAll {d : Nat} (o : Offset d) :
    ∀ e : StExpr d, (e.shiftAll o).accessList =
      e.accessList.map (fun a => ⟨a.operand, fun j => o j + a.offset j⟩) := by
  intro e
  induction e with
  | access p oi => rfl
  | const c => rfl
  | add a b iha ihb =>
      show (a.shiftAll o).accessList ++ (b.shiftAll o).accessList = _
      rw [iha, ihb, StExpr.accessList, List.map_append]
  | mul a b iha ihb =>
      show (a.shiftAll o).accessList ++ (b.shiftAll o).accessList = _
      rw [iha, ihb, StExpr.accessList, List.map_append]

theorem accessList_renumber {d : Nat} (p : Nat) :
    ∀ e : StExpr d, (e.renumber p).accessList =
      e.accessList.map (fun a => ⟨a.operand.remap p, a.offset⟩) := by
  intro e
  induction e with
  | access q oi => rfl
  | const c => rfl
  | add a b iha ihb =>
      show (a.renumber p).accessList ++ (b.renumber p).accessList = _
      rw [iha, ihb, StExpr.accessList, List.map_append]
  | mul a b iha ihb =>
      show (a.renumber p).accessList ++ (b.renumber p).accessList = _
      rw [iha, ihb, StExpr.accessList, List.map_append]

theorem accessList_inlineSubst {d : Nat} (p : Nat) (pb : StExpr d) :
    ∀ e : StExpr d, (StExpr.inlineSubst p pb e).accessList =
      e.accessList.flatMap (substAccessList p pb) := by
  intro e
  induction e with
  | access q oi =>
      cases q with
      | temp t =>
          by_cases ht : t = p
          · subst ht
            simp [StExpr.inlineSubst, StExpr.accessList, substAccessList]
          · simp [StExpr.inlineSubst, StExpr.accessList, substAccessList, ht]
      | ext w => simp [StExpr.inlineSubst, StExpr.accessList, substAccessList]
  | const c => rfl
  | add a b iha ihb =>
      show (StExpr.inlineSubst p pb a).accessList ++ (StExpr.inlineSubst p pb b).accessList = _
      rw [iha, ihb, StExpr.accessList, List.flatMap_append]
  | mul a b iha ihb =>
      show (StExpr.inlineSubst p pb a).accessList ++ (StExpr.inlineSubst p pb b).accessList = _
      rw [iha, ihb, StExpr.accessList, List.flatMap_append]

theorem extOnly_flatMap_subst {d : Nat} (p : Nat) (pb : StExpr d) :
    ∀ l : List (AccessOp d), extOnly l → l.flatMap (substAccessList p pb) = l := by
  intro l
  induction l with
  | nil => intro _; rfl
  | cons a rest ih =>
      intro h
      have ha : isExt a.operand := h a (List.mem_cons_self a rest)
      have hsub : substAccessList p pb a = [a] := by
        unfold substAccessList
        rcases hq : a.operand with t | w
        · rw [hq] at ha; exact ha.elim
        · rfl
      rw [List.flatMap_cons, hsub, ih (fun b hb => h b (List.mem_cons_of_mem a hb))]
      rfl

theorem unmapOperand_ext {p : Nat} {q : Operand} (h : isExt q) : unmapOperand p q = q := by
  cases q with
  | temp t => exact h.elim
  | ext e => rfl

theorem remap_ext {p : Nat} {q : Operand} (h : isExt q) : q.remap p = q := by
  cases q with
  | temp t => exact h.elim
  | ext e => rfl

theorem inlined_producer_accessList {d : Nat} (pb : StExpr d) (o : Offset d)
    (hpb : extOnly pb.accessList) :
    ((pb.shiftAll o).renumber 0).accessList =
      pb.accessList.map (fun a => ⟨a.operand, fun j => o j + a.offset j⟩) := by
  rw [accessList_renumber, accessList_shiftAll, List.map_map]
  refine List.map_congr_left ?_
  intro a ha
  show (⟨(Operand.remap 0 a.operand), fun j => o j + a.offset j⟩ : AccessOp d) = _
  rw [remap_ext (hpb a ha)]

theorem extOnly_map_compose {d : Nat} (o : Offset d) {l : List (AccessOp d)}
    (h : extOnly l) :
    extOnly (l.map (fun a => (⟨a.operand, fun j => o j + a.offset j⟩ : AccessOp d))) := by
  intro a ha
  obtain ⟨b, hb, rfl⟩ := List.mem_map.mp ha
  exact h b hb

theorem extOnly_opBelow {d : Nat} {l : List (AccessOp d)} (h : extOnly l) :
    ∀ a ∈ l, ∀ n : Nat, opBelow a.operand n := by
  intro a ha n
  have := h a ha
  rcases hq : a.operand with t | w
  · rw [hq] at this; exact this.elim
  · exact trivial

theorem chainAfter_region {d : Nat} (pb cb : StExpr d) (sP sC : Shape d) (outB : Box d) :
    (spliceProgram (chainBefore pb cb sP sC outB) 0 pb).regions =
      [⟨[StExpr.inlineSubst 0 pb cb], sC⟩] := rfl

theorem chainAfter_accessList {d : Nat} (pb cb : StExpr d) (o : Offset d)
    (sP sC : Shape d) (outB : Box d) (l1 l2 : List (AccessOp d))
    (hpb : extOnly pb.accessList)
    (hcb : cb.accessList = l1 ++ ⟨Operand.temp 0, o⟩ :: l2)
    (hl1 : extOnly l1) (hl2 : extOnly l2) :
    ((spliceProgram (chainBefore pb cb sP sC outB) 0 pb).regions.getD 0 default).accessList =
      l1 ++ pb.accessList.map (fun a => ⟨a.operand, fun j => o j + a.offset j⟩) ++ l2 := by
  rw [chainAfter_region]
  show (⟨[StExpr.inlineSubst 0 pb cb], sC⟩ : ApplyRegion d).accessList = _
  rw [accessList_single, accessList_inlineSubst, hcb, List.flatMap_append, List.flatMap_cons,
    extOnly_flatMap_subst 0 pb l1 hl1, extOnly_flatMap_subst 0 pb l2 hl2]
  have hmid : substAccessList 0 pb ⟨Operand.temp 0, o⟩ =
      ((pb.shiftAll o).renumber 0).accessList := by
    simp [substAccessList]
  rw [hmid, inlined_producer_accessList pb o hpb, List.append_assoc]

theorem chainBefore_WF {d : Nat} (pb cb : StExpr d) (o : Offset d)
    (sP sC : Shape d) (outB : Box d) (l1 l2 : List (AccessOp d))
    (hpb : extOnly pb.accessList)
    (hcb : cb.accessList = l1 ++ ⟨Operand.temp 0, o⟩ :: l2)
    (hl1 : extOnly l1) (hl2 : extOnly l2) :
    WF (chainBefore pb cb sP sC outB) := by
  intro i hi a ha
  have hi2 : i < 2 := List.mem_range.mp hi
  interval_cases i
  · have hr0 : (chainBefore pb cb sP sC outB).regions.getD 0 default = ⟨[pb], sP⟩ := rfl
    rw [hr0, accessList_single] at ha
    exact extOnly_opBelow hpb a ha 0
  · have hr1 : (chainBefore pb cb sP sC outB).regions.getD 1 default = ⟨[cb], sC⟩ := rfl
    rw [hr1, accessList_single, hcb] at ha
    rcases List.mem_append.mp ha with h1 | h2
    · exact extOnly_opBelow hl1 a h1 1
    · rcases List.mem_cons.mp h2 with rfl | h3
      · show opBelow (Operand.temp 0) 1
        exact Nat.zero_lt_one
      · exact extOnly_opBelow hl2 a h3 1

theorem chainAfter_WF {d : Nat} (pb cb : StExpr d) (o : Offset d)
    (sP sC : Shape d) (outB : Box d) (l1 l2 : List (AccessOp d))
    (hpb : extOnly pb.accessList)
    (hcb : cb.accessList = l1 ++ ⟨Operand.temp 0, o⟩ :: l2)
    (hl1 : extOnly l1) (hl2 : extOnly l2) :
    WF (spliceProgram (chainBefore pb cb sP sC outB) 0 pb) := by
  intro i hi a ha
  have hi1 : i < 1 := List.mem_range.mp hi
  have hi0 : i = 0 := Nat.lt_one_iff.mp hi1
  subst hi0
  rw [chainAfter_accessList pb cb o sP sC outB l1 l2 hpb hcb hl1 hl2] at ha
  rcases List.mem_append.mp ha with h12 | h2
  · rcases List.mem_append.mp h12 with hI | hM
    · exact extOnly_opBelow hl1 a hI 0
    · exact extOnly_opBelow (extOnly_map_compose o hpb) a hM 0
  · exact extOnly_opBelow hl2 a h2 0

/-- C4: inlining equivalence on a two-level chain — after splicing producer
`P` (body `pb`) into its single consumer `C` (body `cb`, which reads `P` via
one access at offset `o`), every access inherited from `P`'s body appears at
the composed offset `o + o_inner`, and re-running shape inference on the
inlined graph yields the same required box for every surviving operand:
every external input keeps its box, and the surviving output temporary keeps
the box the consumer had before inlining. -/
theorem inlining_equivalence {d : Nat} (pb cb : StExpr d) (o : Offset d)
    (sP sC : Shape d) (outB : Box d) (l1 l2 : List (AccessOp d))
    (hpb : extOnly pb.accessList)
    (hcb : cb.accessList = l1 ++ ⟨Operand.temp 0, o⟩ :: l2)
    (hl1 : extOnly l1) (hl2 : extOnly l2) :
    ((spliceProgram (chainBefore pb cb sP sC outB) 0 pb).regions.getD 0 default).accessList =
      l1 ++ pb.accessList.map (fun a => ⟨a.operand, fun j => o j + a.offset j⟩) ++ l2 ∧
    (∀ e : Nat,
      inferShapes (spliceProgram (chainBefore pb cb sP sC outB) 0 pb) (Operand.ext e) =
        inferShapes (chainBefore pb cb sP sC outB) (Operand.ext e)) ∧
    inferShapes (spliceProgram (chainBefore pb cb sP sC outB) 0 pb) (Operand.temp 0) =
      inferShapes (chainBefore pb cb sP sC outB) (Operand.temp 1) := by
  have haccA := chainAfter_accessList pb cb o sP sC outB l1 l2 hpb hcb hl1 hl2
  have hwfB := chainBefore_WF pb cb o sP sC outB l1 l2 hpb hcb hl1 hl2
  have hwfA := chainAfter_WF pb cb o sP sC outB l1 l2 hpb hcb hl1 hl2
  have hsatB := infer_saturated hwfB
  have hsatA := infer_saturated hwfA
  have hr0 : (chainBefore pb cb sP sC outB).regions.getD 0 default = ⟨[pb], sP⟩ := rfl
  have hr1 : (chainBefore pb cb sP sC outB).regions.getD 1 default = ⟨[cb], sC⟩ := rfl
  have hmem0 : 0 ∈ List.range (chainBefore pb cb sP sC outB).regions.length :=
    List.mem_range.mpr Nat.zero_lt_two
  have hmem1 : 1 ∈ List.range (chainBefore pb cb sP sC outB).regions.length :=
    List.mem_range.mpr Nat.one_lt_two
  have hmemA0 : 0 ∈
      List.range (spliceProgram (chainBefore pb cb sP sC outB) 0 pb).regions.length :=
    List.mem_range.mpr Nat.zero_lt_one
  -- soundness facts of the original chain
  have Fmid : shapeLe
      (shapeShift (inferShapes (chainBefore pb cb sP sC outB) (Operand.temp 1)) o)
      (inferShapes (chainBefore pb cb sP sC outB) (Operand.temp 0)) := by
    have := hsatB 1 hmem1 ⟨Operand.temp 0, o⟩ ?_
    · exact this
    · rw [hr1, accessList_single, hcb]
      exact List.mem_append.mpr (Or.inr (List.mem_cons_self _ _))
  have F1 : ∀ a ∈ l1, shapeLe
      (shapeShift (inferShapes (chainBefore pb cb sP sC outB) (Operand.temp 1)) a.offset)
      (inferShapes (chainBefore pb cb sP sC outB) a.operand) := by
    intro a hI
    refine hsatB 1 hmem1 a ?_
    rw [hr1, accessList_single, hcb]
    exact List.mem_append.mpr (Or.inl hI)
  have F3 : ∀ a ∈ l2, shapeLe
      (shapeShift (inferShapes (chainBefore pb cb sP sC outB) (Operand.temp 1)) a.offset)
      (inferShapes (chainBefore pb cb sP sC outB) a.operand) := by
    intro a hI
    refine hsatB 1 hmem1 a ?_
    rw [hr1, accessList_single, hcb]
    exact List.mem_append.mpr (Or.inr (List.mem_cons_of_mem _ hI))
  have F4 : ∀ a ∈ pb.accessList, shapeLe
      (shapeShift (inferShapes (chainBefore pb cb sP sC outB) (Operand.temp 0)) a.offset)
      (inferShapes (chainBefore pb cb sP sC outB) a.operand) := by
    intro a hI
    refine hsatB 0 hmem0 a ?_
    rw [hr0, accessList_single]
    exact hI
  -- soundness facts of the inlined chain
  have G1 : ∀ a ∈ l1, shapeLe
      (shapeShift (inferShapes (spliceProgram (chainBefore pb cb sP sC outB) 0 pb)
        (Operand.temp 0)) a.offset)
      (inferShapes (spliceProgram (chainBefore pb cb sP sC outB) 0 pb) a.operand) := by
    intro a hI
    refine hsatA 0 hmemA0 a ?_
    rw [haccA]
    exact List.mem_append.mpr (Or.inl (List.mem_append.mpr (Or.inl hI)))
  have G2 : ∀ a ∈ l2, shapeLe
      (shapeShift (inferShapes (spliceProgram (chainBefore pb cb sP sC outB) 0 pb)
        (Operand.temp 0)) a.offset)
      (inferShapes (spliceProgram (chainBefore pb cb sP sC outB) 0 pb) a.operand) := by
    intro a hI
    refine hsatA 0 hmemA0 a ?_
    rw [haccA]
    exact List.mem_append.mpr (Or.inr hI)
  have G4 : ∀ b ∈ pb.accessList, shapeLe
      (shapeShift (inferShapes (spliceProgram (chainBefore pb cb sP sC outB) 0 pb)
        (Operand.temp 0)) (fun j => o j + b.offset j))
      (inferShapes (spliceProgram (chainBefore pb cb sP sC outB) 0 pb) b.operand) := by
    intro b hb
    have := hsatA 0 hmemA0 ⟨b.operand, fun j => o j + b.offset j⟩ ?_
    · exact this
    · rw [haccA]
      exact List.mem_append.mpr
        (Or.inl (List.mem_append.mpr (Or.inr (List.mem_map.mpr ⟨b, hb, rfl⟩))))
  -- the pullback of the original shapes bounds the inlined fixpoint
  have seedA : ∀ q, shapeLe ((spliceProgram (chainBefore pb cb sP sC outB) 0 pb).seed q)
      (chainPullback (inferShapes (chainBefore pb cb sP sC outB)) q) := by
    intro q
    show shapeLe ((chainBefore pb cb sP sC outB).seed (unmapOperand 0 q))
      (inferShapes (chainBefore pb cb sP sC outB) (unmapOperand 0 q))
    exact seed_le_infer (chainBefore pb cb sP sC outB) (unmapOperand 0 q)
  have satA : Saturated (spliceProgram (chainBefore pb cb sP sC outB) 0 pb)
      (chainPullback (inferShapes (chainBefore pb cb sP sC outB))) := by
    intro i hi a ha
    have hi0 : i = 0 := Nat.lt_one_iff.mp (List.mem_range.mp hi)
    subst hi0
    rw [haccA] at ha
    have e0 : chainPullback (inferShapes (chainBefore pb cb sP sC outB)) (Operand.temp 0) =
        inferShapes (chainBefore pb cb sP sC outB) (Operand.temp 1) := rfl
    rcases List.mem_append.mp ha with h12 | h2
    · rcases List.mem_append.mp h12 with hI | hM
      · have hx : isExt a.operand := hl1 a hI
        have e1 : chainPullback (inferShapes (chainBefore pb cb sP sC outB)) a.operand =
            inferShapes (chainBefore pb cb sP sC outB) a.operand := by
          show inferShapes (chainBefore pb cb sP sC outB) (unmapOperand 0 a.operand) = _
          rw [unmapOperand_ext hx]
        rw [e0, e1]
        exact F1 a hI
      · obtain ⟨b, hb, rfl⟩ := List.mem_map.mp hM
        have hx : isExt b.operand := hpb b hb
        have e1 : chainPullback (inferShapes (chainBefore pb cb sP sC outB)) b.operand =
            inferShapes (chainBefore pb cb sP sC outB) b.operand := by
          show inferShapes (chainBefore pb cb sP sC outB) (unmapOperand 0 b.operand) = _
          rw [unmapOperand_ext hx]
        show shapeLe
          (shapeShift (chainPullback (inferShapes (chainBefore pb cb sP sC outB))
            (Operand.temp 0)) (fun j => o j + b.offset j))
          (chainPullback (inferShapes (chainBefore pb cb sP sC outB)) b.operand)
        rw [e0, e1,
          ← shapeShift_comp o b.offset (inferShapes (chainBefore pb cb sP sC outB)
            (Operand.temp 1))]
        exact shapeLe_trans (shapeShift_mono b.offset Fmid) (F4 b hb)
    · have hx : isExt a.operand := hl2 a h2
      have e1 : chainPullback (inferShapes (chainBefore pb cb sP sC outB)) a.operand =
          inferShapes (chainBefore pb cb sP sC outB) a.operand := by
        show inferShapes (chainBefore pb cb sP sC outB) (unmapOperand 0 a.operand) = _
        rw [unmapOperand_ext hx]
      rw [e0, e1]
      exact F3 a h2
  have minA : ∀ q, shapeLe (inferShapes (spliceProgram (chainBefore pb cb sP sC outB) 0 pb) q)
      (chainPullback (inferShapes (chainBefore pb cb sP sC outB)) q) :=
    infer_min _ _ seedA satA
  -- the pushforward of the inlined shapes bounds the original fixpoint
  have seedB : ∀ q, shapeLe ((chainBefore pb cb sP sC outB).seed q)
      (chainPushforward (inferShapes (spliceProgram (chainBefore pb cb sP sC outB) 0 pb)) o q) := by
    intro q
    by_cases hq : q = Operand.temp 1
    · subst hq
      have e1 : (chainBefore pb cb sP sC outB).seed (Operand.temp 1) = some outB := by
        simp [chainBefore]
      have e2 : chainPushforward
          (inferShapes (spliceProgram (chainBefore pb cb sP sC outB) 0 pb)) o
          (Operand.temp 1) =
          inferShapes (spliceProgram (chainBefore pb cb sP sC outB) 0 pb) (Operand.temp 0) :=
        rfl
      rw [e1, e2]
      have e3 : (spliceProgram (chainBefore pb cb sP sC outB) 0 pb).seed (Operand.temp 0) =
          some outB := by
        show (chainBefore pb cb sP sC outB).seed (unmapOperand 0 (Operand.temp 0)) = some outB
        simp [unmapOperand, chainBefore]
      have h4 := seed_le_infer (spliceProgram (chainBefore pb cb sP sC outB) 0 pb)
        (Operand.temp 0)
      rwa [e3] at h4
    · have e1 : (chainBefore pb cb sP sC outB).seed q = none := by
        simp [chainBefore, hq]
      rw [e1]
      exact trivial
  have satB : Saturated (chainBefore pb cb sP sC outB)
      (chainPushforward (inferShapes (spliceProgram (chainBefore pb cb sP sC outB) 0 pb)) o) := by
    intro i hi a ha
    have hi2 : i < 2 := List.mem_range.mp hi
    have e0 : chainPushforward
        (inferShapes (spliceProgram (chainBefore pb cb sP sC outB) 0 pb)) o
        (Operand.temp 0) =
        shapeShift (inferShapes (spliceProgram (chainBefore pb cb sP sC outB) 0 pb)
          (Operand.temp 0)) o := rfl
    have e1 : chainPushforward
        (inferShapes (spliceProgram (chainBefore pb cb sP sC outB) 0 pb)) o
        (Operand.temp 1) =
        inferShapes (spliceProgram (chainBefore pb cb sP sC outB) 0 pb) (Operand.temp 0) :=
      rfl
    have eExt : ∀ w : Operand, isExt w → chainPushforward
        (inferShapes (spliceProgram (chainBefore pb cb sP sC outB) 0 pb)) o w =
        inferShapes (spliceProgram (chainBefore pb cb sP sC outB) 0 pb) w := by
      intro w hw
      cases w with
      | temp t => exact hw.elim
      | ext z => rfl
    interval_cases i
    · rw [hr0, accessList_single] at ha
      have hx : isExt a.operand := hpb a ha
      rw [e0, eExt a.operand hx, shapeShift_comp]
      exact G4 a ha
    · rw [hr1, accessList_single, hcb] at ha
      rcases List.mem_append.mp ha with hI | h2
      · have hx : isExt a.operand := hl1 a hI
        rw [e1, eExt a.operand hx]
        exact G1 a hI
      · rcases List.mem_cons.mp h2 with rfl | h3
        · show shapeLe
            (shapeShift (chainPushforward
              (inferShapes (spliceProgram (chainBefore pb cb sP sC outB) 0 pb)) o
              (Operand.temp 1)) o)
            (chainPushforward
              (inferShapes (spliceProgram (chainBefore pb cb sP sC outB) 0 pb)) o
              (Operand.temp 0))
          rw [e1, e0]
          exact shapeLe_refl _
        · have hx : isExt a.operand := hl2 a h3
          rw [e1, eExt a.operand hx]
          exact G2 a h3
  have minB : ∀ q, shapeLe (inferShapes (chainBefore pb cb sP sC outB) q)
      (chainPushforward (inferShapes (spliceProgram (chainBefore pb cb sP sC outB) 0 pb)) o q) :=
    infer_min _ _ seedB satB
  refine ⟨haccA, ?_, ?_⟩
  · intro e
    exact shapeLe_antisymm (minA (Operand.ext e)) (minB (Operand.ext e))
  · exact shapeLe_antisymm (minA (Operand.temp 0)) (minB (Operand.temp 1))

theorem inlining_equivalence_witness :
    extOnly scenarioBody.accessList ∧
    (StExpr.access (Operand.temp 0) (off1 2)).accessList =
      [] ++ ⟨Operand.temp 0, off1 2⟩ :: [] ∧
    inferShapes (spliceProgram (chainBefore scenarioBody
        (StExpr.access (Operand.temp 0) (off1 2)) (some (box1 0 10)) none (box1 0 10))
        0 scenarioBody) (Operand.temp 0) =
      inferShapes (chainBefore scenarioBody (StExpr.access (Operand.temp 0) (off1 2))
        (some (box1 0 10)) none (box1 0 10)) (Operand.temp 1) :=
  ⟨by decide, rfl,
    (inlining_equivalence scenarioBody (StExpr.access (Operand.temp 0) (off1 2)) (off1 2)
      (some (box1 0 10)) none (box1 0 10) [] [] (by decide) rfl (by decide) (by decide)).2.2⟩

end Stencil
